import Mathlib

/-!
# Verification of the invoice_agent repository specification

This file gives a shallow embedding, in Lean 4, of the algorithmic parts of
the `invoice_agent` repository that the frozen claims are about:

* the **Recurring Expense Detector** `analyzeRecurringExpenses` from the
  dashboard page (together with its helpers `isExcluded`, `getExpenseType`,
  the day-of-month clustering and the consecutive-month gap check);
* the **review submission handler** `handleSubmitReview` from the invoice
  detail page (falsy-answer filtering, the `vat_inclusive`/`amount` coupling
  and the empty-payload guard), and the `handleSkipReview` approve-as-is path;
* a model of the backend **VAT Resolver** rule for `vat_inclusive = true`
  (the backend itself is not part of the provided sources, so that single
  rule is modelled from the specification text, as marked below).

Modelling conventions:

* JavaScript strings are modelled as `List Char`; `toLowerCase` is modelled
  by mapping `Char.toLower` (the keywords involved are ASCII) and `trim` by
  dropping whitespace on both ends.
* Calendar dates are modelled as a count of days since 2020-01-01 in the
  proleptic Gregorian calendar (`monthLength`/`monthStartDay` below encode
  the real month lengths, including leap years).  Date-valued strings in the
  code are date-only, so the corresponding JavaScript `Date` timestamps sit
  at midnight: a timestamp is `days * msPerDay` milliseconds.  `Math.ceil`
  of a difference of two midnight timestamps divided by `msPerDay` is then
  exactly the difference of the day counts, which is how `daysDiff` is
  defined.  The model covers all dates from 2020-01-01 onwards.
* Invoice `amount`s are modelled as exact rationals (`ℚ`).
* A nullable field is an `Option`; the JavaScript falsiness tests that the
  code performs (`!inv.vendor`, `!inv.amount`, `value !== "" && …`) are
  translated by the explicit `js…` helper functions below.
* `Array.prototype.sort` with an ascending numeric-key comparator is
  stable (ECMAScript 2019), and a stable ascending reordering is unique, so
  it is modelled by the stable insertion sort `jsSortByKey`; numeric object
  keys (`dayGroups`) are enumerated in ascending order by `Object.keys`, so
  the day-group association list is kept sorted ascending, matching the
  enumeration order the code observes.
-/

/-! ## Calendar model -/

/-- Milliseconds per day, as used by the JavaScript day-difference code. -/
def msPerDay : Nat := 86400000

/-- Gregorian leap-year test. -/
def isLeap (y : Nat) : Bool := y % 4 == 0 && (y % 100 != 0 || y % 400 == 0)

/-- Length of month `m`, where months are counted from January 2020
(month 0 = 2020-01, month 1 = 2020-02, …). -/
def monthLength (m : Nat) : Nat :=
  if m % 12 = 1 then (if isLeap (2020 + m / 12) then 29 else 28)
  else if m % 12 = 3 ∨ m % 12 = 5 ∨ m % 12 = 8 ∨ m % 12 = 10 then 30
  else 31

/-- Day index (days since 2020-01-01) of the first day of month `m`. -/
def monthStartDay : Nat → Nat
  | 0 => 0
  | m + 1 => monthStartDay m + monthLength m

/-- The month (index since 2020-01) containing day `n`:
the greatest `m` whose first day is not after `n`. -/
def monthOfDay (n : Nat) : Nat :=
  Nat.findGreatest (fun m => monthStartDay m ≤ n) (n / 28 + 1)

/-- JavaScript `getDate()` (day of month, 1-based) of day index `n`. -/
def jsGetDate (n : Nat) : Nat := n - monthStartDay (monthOfDay n) + 1

/-- Timestamp (ms) of `new Date(year, month, day)` where `(year, month)` is
the month index `m` since 2020-01: day counts past the end of the month roll
over into later months exactly as in JavaScript. -/
def mkMonthDayMs (m day : Nat) : Nat := (monthStartDay m + day - 1) * msPerDay

/-- `date-fns` `addMonths(t, 1)`: same day of month one month later, clamped
to the length of the target month, keeping the time of day. -/
def addOneMonthMs (t : Nat) : Nat :=
  (monthStartDay (monthOfDay (t / msPerDay) + 1) +
    min (jsGetDate (t / msPerDay)) (monthLength (monthOfDay (t / msPerDay) + 1)) - 1)
    * msPerDay + t % msPerDay

/-- `nextExpected` computation of the detector: the occurrence of `day` in
the current month of `nowMs`, rolled forward one month if it is not strictly
in the future. -/
def nextExpectedMs (nowMs day : Nat) : Nat :=
  if mkMonthDayMs (monthOfDay (nowMs / msPerDay)) day ≤ nowMs then
    addOneMonthMs (mkMonthDayMs (monthOfDay (nowMs / msPerDay)) day)
  else mkMonthDayMs (monthOfDay (nowMs / msPerDay)) day

/-! ## Strings -/

/-- JavaScript strings are modelled as lists of characters. -/
abbrev Str := List Char

/-- `toLowerCase()` (the keywords compared against are ASCII). -/
def toLowerStr (s : Str) : Str := s.map Char.toLower

/-- `trim()`. -/
def trimStr (s : Str) : Str :=
  ((s.dropWhile Char.isWhitespace).reverse.dropWhile Char.isWhitespace).reverse

/-- JavaScript `String.prototype.includes`. -/
def containsStr (s pat : Str) : Bool := decide (pat <:+: s)

/-! ## The `Invoice` record (dashboard `Invoice` interface) -/

structure Invoice where
  id : Nat
  vendor : Option Str
  amount : Option ℚ
  currency : Option Str
  /-- Parsed date as days since 2020-01-01; `none` models a null/empty date
  string (`!inv.date`). -/
  date : Option Nat
  statusOk : Bool
  category : Option Str
deriving DecidableEq, Repr

/-- Day count of an invoice date (only ever used on invoices whose date is
present; `0` is a don't-care default). -/
def dateDays (i : Invoice) : Nat := i.date.getD 0

/-- `new Date(inv.date).getTime()` for a date-only string: midnight. -/
def timeMs (i : Invoice) : Nat := dateDays i * msPerDay

/-- Insert an element before the first strictly-greater key (helper for
`jsSortByKey`). -/
def jsSortInsert {α : Type} (key : α → Nat) (x : α) : List α → List α
  | [] => [x]
  | y :: ys => if key y < key x then y :: jsSortInsert key x ys else x :: y :: ys

/-- JavaScript `Array.prototype.sort` with an ascending numeric-key
comparator `(a, b) => key(a) - key(b)`: the ECMAScript sort is stable, and a
stable ascending-by-key reordering of a list is unique, so it is modelled by
stable insertion sort (each element inserted before the first element with a
strictly greater key keeps equal-key elements in their original order). -/
def jsSortByKey {α : Type} (key : α → Nat) : List α → List α
  | [] => []
  | x :: xs => jsSortInsert key x (jsSortByKey key xs)

/-- `invs.sort((a, b) => new Date(a.date).getTime() - new Date(b.date).getTime())`. -/
def sortByDate (l : List Invoice) : List Invoice := jsSortByKey timeMs l

/-- JavaScript falsiness of a nullable string (`!s`): null or empty. -/
def jsStrFalsy : Option Str → Bool
  | none => true
  | some s => s.isEmpty

/-- JavaScript falsiness of a nullable number (`!q`): null or zero. -/
def jsNumFalsy : Option ℚ → Bool
  | none => true
  | some q => q == 0

/-- The record-skipping test of `analyzeRecurringExpenses`
(`if (!inv.vendor || !inv.date || !inv.amount) return`): a record is kept
iff vendor, date and amount are all truthy. -/
def qualifies (i : Invoice) : Bool :=
  !jsStrFalsy i.vendor && !i.date.isNone && !jsNumFalsy i.amount

/-- `inv.vendor.toLowerCase().trim()` — the normalized vendor key. -/
def normVendorKey (v : Option Str) : Str := trimStr (toLowerStr (v.getD []))

/-- JavaScript `a || b` on a nullable string. -/
def jsOrStr (v : Option Str) (dflt : Str) : Str :=
  match v with
  | none => dflt
  | some s => if s.isEmpty then dflt else s

/-- JavaScript `inv.amount || 0`. -/
def jsAmount (i : Invoice) : ℚ :=
  match i.amount with
  | none => 0
  | some a => if a == 0 then 0 else a

/-- JavaScript `c || undefined` on a nullable string (empty becomes
`undefined`), used for the candidate `category` field. -/
def jsOrUndef : Option Str → Option Str
  | none => none
  | some s => if s.isEmpty then none else some s

/-! ## Keyword tables (verbatim from the dashboard source) -/

def UTILITY_KEYWORDS : List Str :=
  ["dewa".toList, "sewa".toList, "fewa".toList, "addc".toList,
   "electricity".toList, "water".toList, "power".toList]

def TELECOM_KEYWORDS : List Str :=
  ["etisalat".toList, "virgin mobile".toList]

def SUBSCRIPTION_KEYWORDS : List Str :=
  ["microsoft 365".toList, "microsoft".toList, "google workspace".toList,
   "adobe".toList, "slack".toList, "zoom".toList, "aws".toList,
   "azure".toList, "dropbox".toList, "notion".toList, "figma".toList,
   "github".toList, "atlassian".toList, "jira".toList, "hubspot".toList,
   "salesforce".toList, "spotify".toList, "netflix".toList,
   "office 365".toList]

def INSURANCE_KEYWORDS : List Str :=
  ["insurance".toList, "takaful".toList]

def RENT_KEYWORDS : List Str :=
  ["rent".toList, "lease".toList, "tenancy".toList]

def EXCLUDE_KEYWORDS : List Str :=
  ["gdrfa".toList, "amer".toList, "tas-heel".toList, "tasheel".toList,
   "dha".toList, "rta".toList, "traffic".toList, "fine".toList,
   "penalty".toList, "visa".toList, "emirates id".toList, "license".toList,
   "registration".toList, "government".toList, "ministry".toList,
   "municipality".toList, "court".toList, "legal".toList]

/-! ## `getExpenseType` (label-only classification) -/

/-- A regex word character (`\w`). -/
def wordChar (c : Char) : Bool := c.isAlphanum || c == '_'

/-- Generic scanner: does `p prev suffix` match at some position of the
string (with `prev` the character preceding that position)? -/
def scanMatch (p : Option Char → Str → Bool) : Option Char → Str → Bool
  | prev, [] => p prev []
  | prev, c :: rest => p prev (c :: rest) || scanMatch p (some c) rest

/-- Match `/\bdu\s/` at the current position. -/
def matchBduWs (prev : Option Char) : Str → Bool
  | 'd' :: 'u' :: c :: _ =>
    (match prev with | none => true | some pc => !wordChar pc) && c.isWhitespace
  | _ => false

/-- Match `/\sdu\b/` at the current position. -/
def matchWsDuB (_prev : Option Char) : Str → Bool
  | c :: 'd' :: 'u' :: rest =>
    c.isWhitespace && (match rest with | [] => true | r :: _ => !wordChar r)
  | _ => false

/-- The `du` telecom tests:
`/\bdu\s/i.test(text) || /\sdu\b/i.test(text) || text === "du"`. -/
def duRegexTest (s : Str) : Bool :=
  scanMatch matchBduWs none s || scanMatch matchWsDuB none s || s == "du".toList

/-- `getExpenseType(vendor, category)` — keyword classification over
`` `${vendor} ${category || ""}`.toLowerCase() ``; labelling only. -/
def getExpenseType (vendor : Str) (category : Option Str) : Option Str :=
  let text := toLowerStr (vendor ++ [' '] ++ category.getD [])
  if UTILITY_KEYWORDS.any (fun k => containsStr text k) then some ("utility".toList)
  else if TELECOM_KEYWORDS.any (fun k => containsStr text k) || duRegexTest text then
    some ("telecom".toList)
  else if SUBSCRIPTION_KEYWORDS.any (fun k => containsStr text k) then
    some ("subscription".toList)
  else if INSURANCE_KEYWORDS.any (fun k => containsStr text k) then
    some ("insurance".toList)
  else if RENT_KEYWORDS.any (fun k => containsStr text k) then some ("rent".toList)
  else none

/-- `isExcluded(vendor)`: the lowercased vendor contains an exclusion
keyword. -/
def isExcluded (vendor : Str) : Bool :=
  EXCLUDE_KEYWORDS.any (fun k => containsStr (toLowerStr vendor) k)

/-! ## Vendor grouping -/

/-- Push `i` onto the group of key `k` (in place), or append a new group. -/
def insertVendor (m : List (Str × List Invoice)) (k : Str) (i : Invoice) :
    List (Str × List Invoice) :=
  match m with
  | [] => [(k, [i])]
  | (k', g) :: rest =>
    if k' = k then (k', g ++ [i]) :: rest else (k', g) :: insertVendor rest k i

/-- The `vendorInvoices` map: group qualifying records by normalized vendor
key, in insertion order. -/
def groupByVendor (invs : List Invoice) : List (Str × List Invoice) :=
  invs.foldl
    (fun m i => if qualifies i then insertVendor m (normVendorKey i.vendor) i else m)
    []

/-! ## Day-of-month clustering -/

def natDist (a b : Nat) : Nat := max a b - min a b

/-- Assign one invoice (with day-of-month `day`) to the day groups: join the
first existing representative day (in ascending key order, as `Object.keys`
enumerates numeric keys) within distance 1, else open a new group, keeping
the association list sorted ascending by key. -/
def assignToDayGroup (day : Nat) (inv : Invoice) :
    List (Nat × List Invoice) → List (Nat × List Invoice)
  | [] => [(day, [inv])]
  | (k, g) :: rest =>
    if natDist k day ≤ 1 then (k, g ++ [inv]) :: rest
    else if day < k then (day, [inv]) :: (k, g) :: rest
    else (k, g) :: assignToDayGroup day inv rest

/-- STEP 1 of the detector: the `dayGroups` map built over the date-sorted
records. -/
def buildDayGroups (sorted : List Invoice) : List (Nat × List Invoice) :=
  sorted.foldl (fun gs inv => assignToDayGroup (jsGetDate (dateDays inv)) inv gs) []

/-- STEP 2 filter: groups with at least 2 invoices. -/
def validDayGroups (gs : List (Nat × List Invoice)) : List (Nat × List Invoice) :=
  gs.filter (fun p => 2 ≤ p.2.length)

/-- STEP 2 selection: stable descending sort by size then take the head,
i.e. the first group (in ascending-day order) of maximal size. -/
def selectLargestGroup : List (Nat × List Invoice) → Option (Nat × List Invoice)
  | [] => none
  | x :: xs =>
    some (xs.foldl (fun best y => if best.2.length < y.2.length then y else best) x)

/-! ## Consecutive-month check -/

/-- `Math.ceil((dateB - dateA) / msPerDay)` for midnight timestamps: the
exact difference of day counts. -/
def daysDiff (a b : Invoice) : Int := (dateDays b : Int) - (dateDays a : Int)

/-- One adjacent gap is acceptable: 25–38 days inclusive. -/
def gapOk (a b : Invoice) : Bool := 25 ≤ daysDiff a b && daysDiff a b ≤ 38

/-- STEP 3: every adjacent pair of the date-sorted cluster must have an
acceptable gap. -/
def chainOk : List Invoice → Bool
  | [] => true
  | [_] => true
  | a :: b :: rest => gapOk a b && chainOk (b :: rest)

/-! ## The detector -/

/-- The `RecurringExpense` candidate record. `nextExpected` is a timestamp
in ms; `lastDate` is the (day-count) date of the last cluster record. -/
structure RecurringExpense where
  vendor : Str
  avgAmount : ℚ
  dayOfMonth : Nat
  frequency : Nat
  lastDate : Option Nat
  category : Option Str
  nextExpected : Nat
  type : Option Str
deriving DecidableEq, Repr

/-- The body of the per-vendor loop of `analyzeRecurringExpenses`,
parameterized by the classification function (the source uses
`getExpenseType`).  Returns the candidate pushed for this vendor group, if
any. -/
def mkCandidate (classify : Str → Option Str → Option Str) (nowMs : Nat)
    (vendorKey : Str) (invs : List Invoice) : Option RecurringExpense :=
  if invs.length < 2 then none
  else
    match sortByDate invs with
    | [] => none
    | i0 :: rest =>
      if isExcluded (jsOrStr i0.vendor vendorKey) then none
      else
        match selectLargestGroup (validDayGroups (buildDayGroups (i0 :: rest))) with
        | none => none
        | some (avgDay, group) =>
          if chainOk (sortByDate group) then
            some
              { vendor := jsOrStr i0.vendor vendorKey
                avgAmount :=
                  ((sortByDate group).map jsAmount).foldl (· + ·) 0 /
                    (((sortByDate group).map jsAmount).length : ℚ)
                dayOfMonth := avgDay
                frequency := (sortByDate group).length
                lastDate := ((sortByDate group).getLast?).bind Invoice.date
                category :=
                  jsOrUndef (((sortByDate group).head?).bind Invoice.category)
                nextExpected := nextExpectedMs nowMs avgDay
                type :=
                  classify (jsOrStr i0.vendor vendorKey)
                    (((sortByDate group).head?).bind Invoice.category) }
          else none

/-- The final `recurring.sort((a, b) => a.nextExpected - b.nextExpected)`. -/
def sortByNext (l : List RecurringExpense) : List RecurringExpense :=
  jsSortByKey RecurringExpense.nextExpected l

/-- `analyzeRecurringExpenses`, parameterized by the classification
function. -/
def analyzeRecurringWith (classify : Str → Option Str → Option Str)
    (nowMs : Nat) (invoices : List Invoice) : List RecurringExpense :=
  sortByNext ((groupByVendor invoices).filterMap
      (fun p => mkCandidate classify nowMs p.1 p.2))

/-- The detector as in the source, with `getExpenseType` as classifier. -/
def analyzeRecurringExpenses (nowMs : Nat) (invoices : List Invoice) :
    List RecurringExpense :=
  analyzeRecurringWith getExpenseType nowMs invoices

/-- The qualifying records of the vendor with normalized key `v` (what
`vendorInvoices[v]` collects). -/
def vendorRecords (invs : List Invoice) (v : Str) : List Invoice :=
  invs.filter (fun i => qualifies i && (normVendorKey i.vendor == v))

/-! ## The review submission handler (`handleSubmitReview`) -/

/-- The JavaScript values that can occur as review answers. -/
inductive JVal where
  | str (s : Str)
  | num (q : ℚ)
  | bool (b : Bool)
  | null
  | undef
deriving DecidableEq, Repr

/-- The values dropped by the filter in `handleSubmitReview`
(`value !== "" && value !== null && value !== undefined` fails):
exactly the empty string, `null` and `undefined`. -/
def jsEmptyish : JVal → Bool
  | .str s => s.isEmpty
  | .null => true
  | .undef => true
  | _ => false

/-- Object key lookup (keys of an answers object are unique). -/
def lookupKey (m : List (Str × JVal)) (k : Str) : Option JVal :=
  match m with
  | [] => none
  | (k', v) :: rest => if k' = k then some v else lookupKey rest k

/-- Object property assignment `m[k] = v`: overwrite in place, or append. -/
def setKey (m : List (Str × JVal)) (k : Str) (v : JVal) : List (Str × JVal) :=
  match m with
  | [] => [(k, v)]
  | (k', v') :: rest =>
    if k' = k then (k', v) :: rest else (k', v') :: setKey rest k v

def vatKey : Str := "vat_inclusive".toList
def amountKey : Str := "amount".toList

/-- The `filledAnswers` mapping that `handleSubmitReview` builds: filter out
falsy answer values; if `vat_inclusive` is among the remaining answers and
the invoice amount is truthy (`invoice.amount`: non-null and non-zero), the
invoice amount is assigned onto the mapping. -/
def submittedAnswers (answers : List (Str × JVal)) (invoiceAmount : Option ℚ) :
    List (Str × JVal) :=
  if (lookupKey (answers.filter (fun p => !jsEmptyish p.2)) vatKey).isSome &&
      !jsNumFalsy invoiceAmount then
    setKey (answers.filter (fun p => !jsEmptyish p.2)) amountKey
      (JVal.num (invoiceAmount.getD 0))
  else answers.filter (fun p => !jsEmptyish p.2)

/-- `handleSubmitReview`, reduced to its data flow: if no answers remain
after the filter, send no request (`none`); otherwise post the mapping. -/
def handleSubmitReview (answers : List (Str × JVal)) (invoiceAmount : Option ℚ) :
    Option (List (Str × JVal)) :=
  if (submittedAnswers answers invoiceAmount).isEmpty then none
  else some (submittedAnswers answers invoiceAmount)

/-- `handleSkipReview` (the Approve as-is action): always posts the empty
answer mapping. -/
def handleSkipReview : Option (List (Str × JVal)) := some []

/-! ## VAT Resolver, `vat_inclusive = true` rule

Modelled from the spec: the backend VAT Resolver lives in `apps/api` /
`apps/worker`, which are not among the provided sources; the rule for an
explicitly VAT-inclusive amount is modelled from the specification text
(§4.2 rule 3): treat the amount as gross, `net = round(amount / (1 + rate), 2)`
with half-up rounding to 2 decimals, `tax_amount = amount − net`, with the
configured UAE rate 0.05. -/

/-- Modelled from the spec: monetary rounding, half-up to 2 decimals. -/
def roundHalfUp2 (x : ℚ) : ℚ := ((Rat.floor (x * 100 + 1 / 2) : ℤ) : ℚ) / 100

/-- Modelled from the spec: the configured UAE VAT rate (default 0.05). -/
def vatRate : ℚ := 5 / 100

/-- Modelled from the spec: resolving a record whose `vat_inclusive` is
explicitly true — the gross amount is split into `(net, tax_amount)`. -/
def resolveVatInclusive (gross : ℚ) : ℚ × ℚ :=
  (roundHalfUp2 (gross / (1 + vatRate)), gross - roundHalfUp2 (gross / (1 + vatRate)))

/-! ## Calendar lemmas -/

theorem monthLength_ge (m : Nat) : 28 ≤ monthLength m := by
  unfold monthLength
  split
  · split <;> omega
  · split <;> omega

theorem monthStartDay_succ (m : Nat) :
    monthStartDay (m + 1) = monthStartDay m + monthLength m := rfl

theorem monthStartDay_mono : Monotone monthStartDay :=
  monotone_nat_of_le_succ fun m => by
    have := monthLength_ge m
    rw [monthStartDay_succ]
    omega

theorem monthStartDay_ge (m : Nat) : 28 * m ≤ monthStartDay m := by
  induction m with
  | zero => simp
  | succ m ih =>
    have := monthLength_ge m
    rw [monthStartDay_succ]
    omega

theorem monthStartDay_monthOfDay_le (n : Nat) :
    monthStartDay (monthOfDay n) ≤ n := by
  have h0 : monthStartDay 0 ≤ n := by simp [monthStartDay]
  exact Nat.findGreatest_spec (P := fun m => monthStartDay m ≤ n)
    (Nat.zero_le (n / 28 + 1)) h0

theorem lt_monthStartDay_succ (n : Nat) :
    n < monthStartDay (monthOfDay n + 1) := by
  by_contra hcon
  push_neg at hcon
  rcases le_or_lt (monthOfDay n + 1) (n / 28 + 1) with hle | hgt
  · exact Nat.findGreatest_is_greatest (Nat.lt_succ_self _) hle hcon
  · have h1 : n / 28 + 1 ≤ monthOfDay n := by omega
    have h2 : 28 * (n / 28 + 1) ≤ monthStartDay (monthOfDay n) :=
      le_trans (Nat.mul_le_mul_left _ h1) (monthStartDay_ge _)
    have h3 := monthStartDay_monthOfDay_le n
    have h4 := Nat.div_add_mod n 28
    have h5 : n % 28 < 28 := Nat.mod_lt _ (by omega)
    omega

theorem monthOfDay_eq (m n : Nat) (h1 : monthStartDay m ≤ n)
    (h2 : n < monthStartDay (m + 1)) : monthOfDay n = m := by
  rcases Nat.lt_trichotomy (monthOfDay n) m with h | h | h
  · have hs : monthOfDay n + 1 ≤ m := h
    have := monthStartDay_mono hs
    have := lt_monthStartDay_succ n
    omega
  · exact h
  · have hs : m + 1 ≤ monthOfDay n := h
    have := monthStartDay_mono hs
    have := monthStartDay_monthOfDay_le n
    omega

theorem jsGetDate_pos (n : Nat) : 1 ≤ jsGetDate n := by
  unfold jsGetDate
  omega

/-- The `next expected` timestamp is strictly after `now` whenever the
day-of-month argument is at least 1. -/
theorem nextExpectedMs_gt (N day : Nat) (hday : 1 ≤ day) :
    N < nextExpectedMs N day := by
  have hMS : 0 < msPerDay := by unfold msPerDay; omega
  have hdm := Nat.div_add_mod N msPerDay
  have hmod : N % msPerDay < msPerDay := Nat.mod_lt _ hMS
  have hexpand : (N / msPerDay + 1) * msPerDay = msPerDay * (N / msPerDay) + msPerDay := by
    ring
  unfold nextExpectedMs
  split
  case isFalse h => omega
  case isTrue h =>
    have hS := monthStartDay_monthOfDay_le (N / msPerDay)
    have hL := lt_monthStartDay_succ (N / msPerDay)
    rw [monthStartDay_succ] at hL
    unfold mkMonthDayMs at h ⊢
    have hlt : (monthStartDay (monthOfDay (N / msPerDay)) + day - 1) * msPerDay <
        (N / msPerDay + 1) * msPerDay := by omega
    have hled : monthStartDay (monthOfDay (N / msPerDay)) + day - 1 ≤ N / msPerDay :=
      Nat.lt_succ_iff.mp (Nat.lt_of_mul_lt_mul_right hlt)
    have hdayle : day ≤ monthLength (monthOfDay (N / msPerDay)) := by omega
    have hdiv : (monthStartDay (monthOfDay (N / msPerDay)) + day - 1) * msPerDay / msPerDay
        = monthStartDay (monthOfDay (N / msPerDay)) + day - 1 :=
      Nat.mul_div_cancel _ hMS
    have hmo : monthOfDay (monthStartDay (monthOfDay (N / msPerDay)) + day - 1)
        = monthOfDay (N / msPerDay) := by
      refine monthOfDay_eq _ _ (by omega) ?_
      rw [monthStartDay_succ]
      have := monthLength_ge (monthOfDay (N / msPerDay))
      omega
    unfold addOneMonthMs jsGetDate
    rw [hdiv, hmo]
    have hget : monthStartDay (monthOfDay (N / msPerDay)) + day - 1 -
        monthStartDay (monthOfDay (N / msPerDay)) + 1 = day := by omega
    rw [hget]
    rw [Nat.mul_mod_left, Nat.add_zero, monthStartDay_succ]
    have hL2 := monthLength_ge (monthOfDay (N / msPerDay) + 1)
    have hmin : 1 ≤ min day (monthLength (monthOfDay (N / msPerDay) + 1)) := by
      omega
    have htarget : N / msPerDay + 1 ≤
        monthStartDay (monthOfDay (N / msPerDay)) + monthLength (monthOfDay (N / msPerDay)) +
          min day (monthLength (monthOfDay (N / msPerDay) + 1)) - 1 := by omega
    calc N < (N / msPerDay + 1) * msPerDay := by omega
      _ ≤ (monthStartDay (monthOfDay (N / msPerDay)) + monthLength (monthOfDay (N / msPerDay)) +
            min day (monthLength (monthOfDay (N / msPerDay) + 1)) - 1) * msPerDay :=
          Nat.mul_le_mul_right _ htarget

/-! ## Vendor grouping lemmas -/

theorem insertVendor_keys (k : Str) (i : Invoice) :
    ∀ (m : List (Str × List Invoice)),
      (insertVendor m k i).map Prod.fst =
        if k ∈ m.map Prod.fst then m.map Prod.fst else m.map Prod.fst ++ [k]
  | [] => by simp [insertVendor]
  | (k', g) :: tl => by
    by_cases hk : k' = k
    · subst hk
      simp [insertVendor]
    · have ih := insertVendor_keys k i tl
      simp only [insertVendor, if_neg hk, List.map_cons, ih]
      by_cases hmem : k ∈ tl.map Prod.fst
      · rw [if_pos hmem, if_pos (List.mem_cons_of_mem _ hmem)]
      · rw [if_neg hmem, if_neg ?_, List.cons_append]
        intro hcon
        rcases List.mem_cons.mp hcon with h | h
        · exact hk h.symm
        · exact hmem h

theorem insertVendor_nodup (m : List (Str × List Invoice)) (k : Str) (i : Invoice)
    (h : (m.map Prod.fst).Nodup) : ((insertVendor m k i).map Prod.fst).Nodup := by
  rw [insertVendor_keys]
  split
  · exact h
  · next hk =>
    rw [List.nodup_append]
    refine ⟨h, List.nodup_singleton _, ?_⟩
    intro a ha hak
    rw [List.mem_singleton] at hak
    exact hk (hak ▸ ha)

theorem insertVendor_groups (F : Str → List Invoice) (k : Str) (i : Invoice) :
    ∀ (m : List (Str × List Invoice)), (m.map Prod.fst).Nodup →
      (∀ p ∈ m, p.2 = F p.1) → (k ∉ m.map Prod.fst → F k = []) →
      ∀ p ∈ insertVendor m k i,
        p.2 = if p.1 = k then F k ++ [i] else F p.1
  | [], _, _, hmiss, p, hp => by
    simp only [insertVendor, List.mem_singleton] at hp
    subst hp
    rw [if_pos rfl, hmiss (by simp)]
    rfl
  | (k', g) :: tl, hnd, hall, hmiss, p, hp => by
    rw [List.map_cons, List.nodup_cons] at hnd
    by_cases hk : k' = k
    · subst hk
      rw [show insertVendor ((k', g) :: tl) k' i = (k', g ++ [i]) :: tl from by
        simp [insertVendor]] at hp
      rcases List.mem_cons.mp hp with hp | hp
      · subst hp
        rw [if_pos rfl]
        have hg : g = F k' := hall (k', g) (List.mem_cons_self _ _)
        rw [← hg]
      · have hpF : p.2 = F p.1 := hall p (List.mem_cons_of_mem _ hp)
        have hne : p.1 ≠ k' := by
          intro hcon
          have hmem := List.mem_map_of_mem Prod.fst hp
          rw [hcon] at hmem
          exact hnd.1 hmem
        rw [if_neg hne, hpF]
    · rw [show insertVendor ((k', g) :: tl) k i = (k', g) :: insertVendor tl k i from by
        simp [insertVendor, hk]] at hp
      rcases List.mem_cons.mp hp with hp | hp
      · subst hp
        have hkk : (k', g).1 ≠ k := hk
        rw [if_neg hkk]
        exact hall (k', g) (List.mem_cons_self _ _)
      · refine insertVendor_groups F k i tl hnd.2
          (fun q hq => hall q (List.mem_cons_of_mem _ hq)) ?_ p hp
        intro hkm
        refine hmiss ?_
        rw [List.map_cons, List.mem_cons]
        rintro (h | h)
        · exact hk h.symm
        · exact hkm h

theorem vendorRecords_append (l₁ l₂ : List Invoice) (k : Str) :
    vendorRecords (l₁ ++ l₂) k = vendorRecords l₁ k ++ vendorRecords l₂ k := by
  simp [vendorRecords, List.filter_append]

theorem vendorRecords_single (i : Invoice) (k : Str) :
    vendorRecords [i] k =
      if qualifies i && (normVendorKey i.vendor == k) then [i] else [] := by
  simp only [vendorRecords, List.filter]
  split <;> simp_all

theorem foldl_groupBy_char :
    ∀ (invs : List Invoice) (acc : List (Str × List Invoice)) (prev : List Invoice),
      (acc.map Prod.fst).Nodup →
      (∀ p ∈ acc, p.2 = vendorRecords prev p.1) →
      (∀ k, k ∉ acc.map Prod.fst → vendorRecords prev k = []) →
      ((invs.foldl
          (fun m i => if qualifies i then insertVendor m (normVendorKey i.vendor) i else m)
          acc).map Prod.fst).Nodup ∧
      ∀ p ∈ invs.foldl
          (fun m i => if qualifies i then insertVendor m (normVendorKey i.vendor) i else m)
          acc,
        p.2 = vendorRecords (prev ++ invs) p.1
  | [], acc, prev, hnd, hall, _ => by
    rw [List.foldl_nil, List.append_nil]
    exact ⟨hnd, hall⟩
  | i :: tl, acc, prev, hnd, hall, hmiss => by
    rw [List.foldl_cons]
    by_cases hq : qualifies i
    · rw [if_pos hq]
      have hone : ∀ k, vendorRecords (prev ++ [i]) k =
          vendorRecords prev k ++ (if normVendorKey i.vendor = k then [i] else []) := by
        intro k
        rw [vendorRecords_append, vendorRecords_single]
        by_cases hk : normVendorKey i.vendor = k
        · simp [hq, hk]
        · simp [hq, hk]
      have h1 : ((insertVendor acc (normVendorKey i.vendor) i).map Prod.fst).Nodup :=
        insertVendor_nodup _ _ _ hnd
      have hstep := insertVendor_groups (vendorRecords prev) (normVendorKey i.vendor) i acc
        hnd hall (hmiss _)
      have h2 : ∀ p ∈ insertVendor acc (normVendorKey i.vendor) i,
          p.2 = vendorRecords (prev ++ [i]) p.1 := by
        intro p hp
        rw [hone]
        have hv := hstep p hp
        by_cases hk : p.1 = normVendorKey i.vendor
        · rw [if_pos hk] at hv
          rw [hv, if_pos hk.symm, hk]
        · rw [if_neg hk] at hv
          rw [hv, if_neg (fun h => hk h.symm)]
          simp
      have h3 : ∀ k, k ∉ (insertVendor acc (normVendorKey i.vendor) i).map Prod.fst →
          vendorRecords (prev ++ [i]) k = [] := by
        intro k hkn
        rw [insertVendor_keys] at hkn
        have hnotacc : k ∉ acc.map Prod.fst ∧ k ≠ normVendorKey i.vendor := by
          by_cases hmem : normVendorKey i.vendor ∈ acc.map Prod.fst
          · rw [if_pos hmem] at hkn
            exact ⟨hkn, fun hcon => hkn (hcon ▸ hmem)⟩
          · rw [if_neg hmem] at hkn
            rw [List.mem_append, List.mem_singleton] at hkn
            push_neg at hkn
            exact hkn
        rw [hone, hmiss k hnotacc.1, if_neg (fun h => hnotacc.2 h.symm)]
        rfl
      have hrec := foldl_groupBy_char tl (insertVendor acc (normVendorKey i.vendor) i)
        (prev ++ [i]) h1 h2 h3
      rw [List.append_assoc, List.singleton_append] at hrec
      exact hrec
    · rw [if_neg hq]
      have hone : ∀ k, vendorRecords (prev ++ [i]) k = vendorRecords prev k := by
        intro k
        rw [vendorRecords_append, vendorRecords_single]
        simp [hq]
      have h2 : ∀ p ∈ acc, p.2 = vendorRecords (prev ++ [i]) p.1 := fun p hp =>
        (hone p.1) ▸ hall p hp
      have h3 : ∀ k, k ∉ acc.map Prod.fst → vendorRecords (prev ++ [i]) k = [] := fun k hk =>
        (hone k) ▸ hmiss k hk
      have hrec := foldl_groupBy_char tl acc (prev ++ [i]) hnd h2 h3
      rw [List.append_assoc, List.singleton_append] at hrec
      exact hrec

/-- Every vendor group built by `groupByVendor` is exactly the subsequence of
qualifying records carrying that normalized vendor key. -/
theorem groupByVendor_char (invs : List Invoice) :
    ∀ p ∈ groupByVendor invs, p.2 = vendorRecords invs p.1 := by
  have h := foldl_groupBy_char invs [] [] (by simp)
    (fun p hp => absurd hp (List.not_mem_nil p)) (fun k _ => rfl)
  intro p hp
  exact h.2 p hp

/-- Members of a vendor group qualify and carry the group's key. -/
theorem groupByVendor_mem_qualifies (invs : List Invoice)
    (p : Str × List Invoice) (hp : p ∈ groupByVendor invs) :
    ∀ i ∈ p.2, qualifies i = true ∧ normVendorKey i.vendor = p.1 := by
  intro i hi
  rw [groupByVendor_char invs p hp] at hi
  unfold vendorRecords at hi
  rw [List.mem_filter] at hi
  have hpred := hi.2
  simp only [Bool.and_eq_true, beq_iff_eq] at hpred
  exact hpred

/-! ## Detector helper lemmas -/

/-- The fold used by `selectLargestGroup` returns an element of the list. -/
theorem foldl_best_mem :
    ∀ (xs : List (Nat × List Invoice)) (x : Nat × List Invoice),
      xs.foldl (fun best y => if best.2.length < y.2.length then y else best) x ∈ x :: xs
  | [], x => List.mem_singleton.mpr rfl
  | y :: ys, x => by
    rw [List.foldl_cons]
    rcases List.mem_cons.mp (foldl_best_mem ys (if x.2.length < y.2.length then y else x))
      with h | h
    · rw [h]
      split
      · exact List.mem_cons_of_mem _ (List.mem_cons_self _ _)
      · exact List.mem_cons_self _ _
    · exact List.mem_cons_of_mem _ (List.mem_cons_of_mem _ h)

theorem selectLargestGroup_mem (l : List (Nat × List Invoice)) (p : Nat × List Invoice)
    (h : selectLargestGroup l = some p) : p ∈ l := by
  match l with
  | [] => exact absurd h (by simp [selectLargestGroup])
  | x :: xs =>
    rw [selectLargestGroup, Option.some.injEq] at h
    rw [← h]
    exact foldl_best_mem xs x

theorem validDayGroups_mem (gs : List (Nat × List Invoice)) (p : Nat × List Invoice)
    (h : p ∈ validDayGroups gs) : p ∈ gs ∧ 2 ≤ p.2.length := by
  unfold validDayGroups at h
  rw [List.mem_filter] at h
  refine ⟨h.1, ?_⟩
  have := h.2
  simpa using this

/-- Every key of the day groups is either the inserted day or an old key. -/
theorem assignToDayGroup_key (day : Nat) (inv : Invoice) :
    ∀ (gs : List (Nat × List Invoice)) (p : Nat × List Invoice),
      p ∈ assignToDayGroup day inv gs → p.1 = day ∨ p.1 ∈ gs.map Prod.fst
  | [], p, hp => by
    simp only [assignToDayGroup, List.mem_singleton] at hp
    subst hp
    exact Or.inl rfl
  | (k, g) :: rest, p, hp => by
    rw [assignToDayGroup] at hp
    split at hp
    · rcases List.mem_cons.mp hp with hp | hp
      · subst hp
        exact Or.inr (by simp)
      · exact Or.inr (by simp [List.mem_map_of_mem Prod.fst hp])
    · split at hp
      · rcases List.mem_cons.mp hp with hp | hp
        · subst hp
          exact Or.inl rfl
        · rcases List.mem_cons.mp hp with hp | hp
          · subst hp
            exact Or.inr (by simp)
          · exact Or.inr (by simp [List.mem_map_of_mem Prod.fst hp])
      · rcases List.mem_cons.mp hp with hp | hp
        · subst hp
          exact Or.inr (by simp)
        · rcases assignToDayGroup_key day inv rest p hp with h | h
          · exact Or.inl h
          · exact Or.inr (by simp [h])

/-- All day-group keys are honest days of month (≥ 1). -/
theorem buildDayGroups_key_pos :
    ∀ (l : List Invoice) (acc : List (Nat × List Invoice)),
      (∀ p ∈ acc, 1 ≤ p.1) →
      ∀ p ∈ l.foldl (fun gs inv => assignToDayGroup (jsGetDate (dateDays inv)) inv gs) acc,
        1 ≤ p.1
  | [], acc, hacc, p, hp => hacc p (by rwa [List.foldl_nil] at hp)
  | i :: tl, acc, hacc, p, hp => by
    rw [List.foldl_cons] at hp
    refine buildDayGroups_key_pos tl _ ?_ p hp
    intro q hq
    rcases assignToDayGroup_key (jsGetDate (dateDays i)) i acc q hq with h | h
    · rw [h]
      exact jsGetDate_pos _
    · rcases List.mem_map.mp h with ⟨q', hq', hq'1⟩
      rw [← hq'1]
      exact hacc q' hq'

/-- `chainOk` is the adjacent-pairs gap condition. -/
theorem chainOk_iff :
    ∀ l : List Invoice,
      chainOk l = true ↔ l.Chain' (fun a b => 25 ≤ daysDiff a b ∧ daysDiff a b ≤ 38)
  | [] => by simp [chainOk]
  | [a] => by simp [chainOk]
  | a :: b :: rest => by
    rw [chainOk, List.chain'_cons, Bool.and_eq_true, chainOk_iff (b :: rest)]
    unfold gapOk
    rw [Bool.and_eq_true, decide_eq_true_iff, decide_eq_true_iff]

/-- `inv.amount || 0` is just `getD 0`. -/
theorem jsAmount_eq (i : Invoice) : jsAmount i = i.amount.getD 0 := by
  unfold jsAmount
  match h : i.amount with
  | none => rfl
  | some a =>
    simp only [Option.getD_some]
    split
    · next hz => exact (beq_iff_eq.mp hz).symm
    · rfl

theorem foldl_add_eq_sum (l : List ℚ) (a : ℚ) : l.foldl (· + ·) a = a + l.sum := by
  induction l generalizing a with
  | nil => simp
  | cons x xs ih =>
    rw [List.foldl_cons, List.sum_cons, ih (a + x)]
    ring

/-- In a date-sorted nonempty list every element's date is at most the last
element's date. -/
theorem sorted_le_getLast :
    ∀ (l : List Invoice), l.Pairwise (fun a b => dateDays a ≤ dateDays b) →
      ∀ i ∈ l, ∀ (hne : l ≠ []), dateDays i ≤ dateDays (l.getLast hne)
  | [], _, i, hi, _ => absurd hi (List.not_mem_nil i)
  | [a], _, i, hi, hne => by
    rw [List.mem_singleton] at hi
    subst hi
    rfl
  | a :: b :: rest, hp, i, hi, hne => by
    rw [List.pairwise_cons] at hp
    rw [List.getLast_cons (by simp)]
    rcases List.mem_cons.mp hi with hi | hi
    · subst hi
      exact le_trans (hp.1 _ (List.getLast_mem _)) (le_refl _)
    · exact sorted_le_getLast (b :: rest) hp.2 i hi (by simp)

/-! ## Stable-sort lemmas -/

theorem jsSortInsert_perm {α : Type} (key : α → Nat) (x : α) :
    ∀ l : List α, List.Perm (jsSortInsert key x l) (x :: l)
  | [] => List.Perm.refl _
  | y :: ys => by
    rw [jsSortInsert]
    split
    · exact ((jsSortInsert_perm key x ys).cons y).trans (List.Perm.swap x y ys)
    · exact List.Perm.refl _

theorem jsSortByKey_perm {α : Type} (key : α → Nat) :
    ∀ l : List α, List.Perm (jsSortByKey key l) l
  | [] => List.Perm.refl _
  | x :: xs => by
    rw [jsSortByKey]
    exact (jsSortInsert_perm key x (jsSortByKey key xs)).trans
      ((jsSortByKey_perm key xs).cons x)

theorem mem_jsSortByKey {α : Type} (key : α → Nat) (l : List α) (a : α) :
    a ∈ jsSortByKey key l ↔ a ∈ l := (jsSortByKey_perm key l).mem_iff

theorem length_jsSortByKey {α : Type} (key : α → Nat) (l : List α) :
    (jsSortByKey key l).length = l.length := (jsSortByKey_perm key l).length_eq

theorem pairwise_jsSortInsert {α : Type} (key : α → Nat) (x : α) :
    ∀ l : List α, l.Pairwise (fun a b => key a ≤ key b) →
      (jsSortInsert key x l).Pairwise (fun a b => key a ≤ key b)
  | [], _ => List.pairwise_singleton _ _
  | y :: ys, hp => by
    rw [List.pairwise_cons] at hp
    rw [jsSortInsert]
    split
    · next hlt =>
      rw [List.pairwise_cons]
      refine ⟨?_, pairwise_jsSortInsert key x ys hp.2⟩
      intro b hb
      rcases List.mem_cons.mp ((jsSortInsert_perm key x ys).mem_iff.mp hb) with hb | hb
      · subst hb
        omega
      · exact hp.1 b hb
    · next hge =>
      rw [List.pairwise_cons]
      constructor
      · intro b hb
        rcases List.mem_cons.mp hb with hb | hb
        · subst hb
          omega
        · have := hp.1 b hb
          omega
      · exact List.pairwise_cons.mpr hp

theorem pairwise_jsSortByKey {α : Type} (key : α → Nat) :
    ∀ l : List α, (jsSortByKey key l).Pairwise (fun a b => key a ≤ key b)
  | [] => List.Pairwise.nil
  | x :: xs => pairwise_jsSortInsert key x _ (pairwise_jsSortByKey key xs)

theorem map_jsSortInsert {α β : Type} (f : α → β) (key : α → Nat) (key2 : β → Nat)
    (hk : ∀ a, key2 (f a) = key a) (x : α) :
    ∀ l : List α, (jsSortInsert key x l).map f = jsSortInsert key2 (f x) (l.map f)
  | [] => rfl
  | y :: ys => by
    rw [jsSortInsert, List.map_cons, jsSortInsert, hk, hk]
    split
    · rw [List.map_cons, map_jsSortInsert f key key2 hk x ys]
    · rw [List.map_cons, List.map_cons]

theorem map_jsSortByKey {α β : Type} (f : α → β) (key : α → Nat) (key2 : β → Nat)
    (hk : ∀ a, key2 (f a) = key a) :
    ∀ l : List α, (jsSortByKey key l).map f = jsSortByKey key2 (l.map f)
  | [] => rfl
  | x :: xs => by
    rw [jsSortByKey, List.map_cons, jsSortByKey,
        map_jsSortInsert f key key2 hk x, map_jsSortByKey f key key2 hk xs]

theorem mem_sortByDate (l : List Invoice) (a : Invoice) :
    a ∈ sortByDate l ↔ a ∈ l :=
  mem_jsSortByKey timeMs l a

theorem length_sortByDate (l : List Invoice) : (sortByDate l).length = l.length :=
  length_jsSortByKey timeMs l

/-- `sortByDate` yields a list pairwise sorted on `dateDays`. -/
theorem sortByDate_pairwise (l : List Invoice) :
    (sortByDate l).Pairwise (fun a b => dateDays a ≤ dateDays b) := by
  refine (pairwise_jsSortByKey timeMs l).imp ?_
  intro a b hab
  unfold timeMs at hab
  have : 0 < msPerDay := by unfold msPerDay; omega
  exact Nat.le_of_mul_le_mul_right hab this

/-- Inversion of the per-vendor loop body: everything that must have held
when a candidate was pushed. -/
theorem mkCandidate_some_inv (cl : Str → Option Str → Option Str) (nowMs : Nat)
    (v : Str) (invs : List Invoice) (c : RecurringExpense)
    (h : mkCandidate cl nowMs v invs = some c) :
    2 ≤ invs.length ∧
    ∃ i0 rest d group,
      sortByDate invs = i0 :: rest ∧
      selectLargestGroup (validDayGroups (buildDayGroups (sortByDate invs))) =
        some (d, group) ∧
      chainOk (sortByDate group) = true ∧
      isExcluded (jsOrStr i0.vendor v) = false ∧
      c = { vendor := jsOrStr i0.vendor v
            avgAmount := ((sortByDate group).map jsAmount).foldl (· + ·) 0 /
              ((((sortByDate group).map jsAmount).length : Nat) : ℚ)
            dayOfMonth := d
            frequency := (sortByDate group).length
            lastDate := ((sortByDate group).getLast?).bind Invoice.date
            category := jsOrUndef (((sortByDate group).head?).bind Invoice.category)
            nextExpected := nextExpectedMs nowMs d
            type := cl (jsOrStr i0.vendor v)
              (((sortByDate group).head?).bind Invoice.category) } := by
  unfold mkCandidate at h
  split at h
  · exact absurd h (by simp)
  · next hlen =>
    split at h
    · exact absurd h (by simp)
    · next i0 rest hsort =>
      split at h
      · exact absurd h (by simp)
      · next hexc =>
        split at h
        · exact absurd h (by simp)
        · next d group hsel =>
          split at h
          · next hchain =>
            rw [Option.some.injEq] at h
            refine ⟨by omega, i0, rest, d, group, hsort, ?_, hchain, ?_, h.symm⟩
            · rw [hsort]
              exact hsel
            · rwa [Bool.not_eq_true] at hexc
          · exact absurd h (by simp)

theorem mem_analyzeRecurringWith (cl : Str → Option Str → Option Str) (nowMs : Nat)
    (invs : List Invoice) (c : RecurringExpense) :
    c ∈ analyzeRecurringWith cl nowMs invs ↔
      ∃ p, p ∈ groupByVendor invs ∧ mkCandidate cl nowMs p.1 p.2 = some c := by
  unfold analyzeRecurringWith sortByNext
  rw [mem_jsSortByKey, List.mem_filterMap]

theorem normKey_jsOrStr (i : Invoice) (hq : qualifies i = true) (d : Str) :
    normVendorKey (some (jsOrStr i.vendor d)) = normVendorKey i.vendor := by
  unfold qualifies at hq
  rw [Bool.and_eq_true, Bool.and_eq_true] at hq
  have hv := hq.1.1
  rw [Bool.not_eq_true'] at hv
  match hvv : i.vendor with
  | none =>
    rw [hvv] at hv
    simp [jsStrFalsy] at hv
  | some s =>
    rw [hvv] at hv
    simp only [jsStrFalsy] at hv
    simp [jsOrStr, hv]

/-- Main inversion at the level of the whole detector: every emitted
candidate is the candidate of its own normalized vendor's qualifying
records. -/
theorem analyze_mem_main (cl : Str → Option Str → Option Str) (nowMs : Nat)
    (invs : List Invoice) (c : RecurringExpense)
    (h : c ∈ analyzeRecurringWith cl nowMs invs) :
    mkCandidate cl nowMs (normVendorKey (some c.vendor))
      (vendorRecords invs (normVendorKey (some c.vendor))) = some c := by
  rcases (mem_analyzeRecurringWith cl nowMs invs c).mp h with ⟨p, hpmem, hpc⟩
  have hchar := groupByVendor_char invs p hpmem
  obtain ⟨hlen, i0, rest, d, group, hsort, hsel, hchain, hexc, hc⟩ :=
    mkCandidate_some_inv cl nowMs p.1 p.2 c hpc
  have hi0 : i0 ∈ p.2 := by
    rw [← mem_sortByDate p.2 i0, hsort]
    exact List.mem_cons_self _ _
  have hq := groupByVendor_mem_qualifies invs p hpmem i0 hi0
  have hcv : c.vendor = jsOrStr i0.vendor p.1 := by rw [hc]
  have hkey : normVendorKey (some c.vendor) = p.1 := by
    rw [hcv, normKey_jsOrStr i0 hq.1 p.1, hq.2]
  rw [hkey, ← hchar]
  exact hpc

/-! ## Claim theorems -/

/-- **C5**: for every input record set, the candidate list returned by the
detector is sorted ascending by `next_expected_date`: each adjacent pair of
output elements satisfies `nextExpected ≤ nextExpected`. -/
theorem claim_C5_output_sorted (nowMs : Nat) (invs : List Invoice) :
    (analyzeRecurringExpenses nowMs invs).Chain'
      (fun a b => a.nextExpected ≤ b.nextExpected) := by
  unfold analyzeRecurringExpenses analyzeRecurringWith sortByNext
  exact (pairwise_jsSortByKey RecurringExpense.nextExpected _).chain'

theorem groupByVendor_filter_eq :
    ∀ (invs : List Invoice) (acc : List (Str × List Invoice)),
      (invs.filter qualifies).foldl
        (fun m i => if qualifies i then insertVendor m (normVendorKey i.vendor) i else m)
        acc =
      invs.foldl
        (fun m i => if qualifies i then insertVendor m (normVendorKey i.vendor) i else m)
        acc
  | [], _ => rfl
  | i :: tl, acc => by
    rw [List.filter_cons]
    by_cases hq : qualifies i
    · rw [if_pos hq, List.foldl_cons, List.foldl_cons, if_pos hq]
      exact groupByVendor_filter_eq tl _
    · rw [if_neg hq, List.foldl_cons, if_neg hq]
      exact groupByVendor_filter_eq tl acc

/-- **C9**: the detector ignores records with a falsy vendor, date or amount:
the output is unchanged when the input is restricted to its qualifying
subsequence (non-empty vendor, non-empty date, non-null non-zero amount). -/
theorem claim_C9_ignores_invalid_records (nowMs : Nat) (invs : List Invoice) :
    analyzeRecurringExpenses nowMs invs =
      analyzeRecurringExpenses nowMs (invs.filter qualifies) := by
  unfold analyzeRecurringExpenses analyzeRecurringWith groupByVendor
  rw [groupByVendor_filter_eq]

/-- A candidate with its classification label erased. -/
def eraseType (c : RecurringExpense) : RecurringExpense := { c with type := none }

theorem mkCandidate_eraseType (cl : Str → Option Str → Option Str) (nowMs : Nat)
    (v : Str) (invs : List Invoice) :
    (mkCandidate cl nowMs v invs).map eraseType =
      (mkCandidate getExpenseType nowMs v invs).map eraseType := by
  unfold mkCandidate
  split
  · rfl
  · split
    · rfl
    · split
      · rfl
      · split
        · rfl
        · split
          · rfl
          · rfl

/-- **C6**: classification is label-only: replacing `getExpenseType` by any
other classification function leaves the emitted candidates — every field
except the `type` label — unchanged, so it never affects inclusion. -/
theorem claim_C6_classification_label_only (cl : Str → Option Str → Option Str)
    (nowMs : Nat) (invs : List Invoice) :
    (analyzeRecurringWith cl nowMs invs).map eraseType =
      (analyzeRecurringExpenses nowMs invs).map eraseType := by
  unfold analyzeRecurringExpenses analyzeRecurringWith sortByNext
  rw [map_jsSortByKey eraseType RecurringExpense.nextExpected
        RecurringExpense.nextExpected (fun a => rfl),
      map_jsSortByKey eraseType RecurringExpense.nextExpected
        RecurringExpense.nextExpected (fun a => rfl),
      List.map_filterMap, List.map_filterMap]
  have hfun : (fun p : Str × List Invoice =>
        Option.map eraseType (mkCandidate cl nowMs p.1 p.2)) =
      (fun p => Option.map eraseType (mkCandidate getExpenseType nowMs p.1 p.2)) := by
    funext p
    exact mkCandidate_eraseType cl nowMs p.1 p.2
  rw [hfun]

/-- **C2**: an emitted candidate's vendor never contains an exclusion
keyword (case-insensitively), and its normalized vendor always has at least
2 qualifying records in the input — so excluded vendors and vendors with
fewer than 2 records produce no candidate. -/
theorem claim_C2_exclusion_and_min_records (nowMs : Nat) (invs : List Invoice)
    (c : RecurringExpense) (h : c ∈ analyzeRecurringExpenses nowMs invs) :
    isExcluded c.vendor = false ∧
    (∀ k ∈ EXCLUDE_KEYWORDS, ¬ k <:+: toLowerStr c.vendor) ∧
    2 ≤ (vendorRecords invs (normVendorKey (some c.vendor))).length := by
  have hmain := analyze_mem_main getExpenseType nowMs invs c h
  obtain ⟨hlen, i0, rest, d, group, hsort, hsel, hchain, hexc, hc⟩ :=
    mkCandidate_some_inv _ _ _ _ _ hmain
  have h1 : isExcluded c.vendor = false := by
    rw [hc]
    exact hexc
  refine ⟨h1, ?_, hlen⟩
  intro k hk
  unfold isExcluded at h1
  rw [List.any_eq_false] at h1
  have h2 := h1 k hk
  unfold containsStr at h2
  simpa using h2

/-- **C4**: every emitted candidate's `next_expected_date` is strictly after
`now`, and it is exactly the occurrence of `day_of_month` in the current
month, rolled forward one month if that occurrence is not strictly in the
future. -/
theorem claim_C4_next_expected_strictly_future (nowMs : Nat) (invs : List Invoice)
    (c : RecurringExpense) (h : c ∈ analyzeRecurringExpenses nowMs invs) :
    nowMs < c.nextExpected ∧ c.nextExpected = nextExpectedMs nowMs c.dayOfMonth := by
  have hmain := analyze_mem_main getExpenseType nowMs invs c h
  obtain ⟨hlen, i0, rest, d, group, hsort, hsel, hchain, hexc, hc⟩ :=
    mkCandidate_some_inv _ _ _ _ _ hmain
  have hday : c.dayOfMonth = d := by rw [hc]
  have hnext : c.nextExpected = nextExpectedMs nowMs d := by rw [hc]
  have hmem := selectLargestGroup_mem _ _ hsel
  have hval := validDayGroups_mem _ _ hmem
  have hd1 : 1 ≤ d := by
    have := buildDayGroups_key_pos
      (sortByDate (vendorRecords invs (normVendorKey (some c.vendor)))) []
      (fun p hp => absurd hp (List.not_mem_nil p)) (d, group) hval.1
    exact this
  rw [hday, hnext]
  exact ⟨nextExpectedMs_gt nowMs d hd1, rfl⟩

/-- **C1**: if the cluster selected for a vendor (the first largest
day-of-month group with ≥ 2 members) has, in date order, an adjacent pair
whose day gap is below 25 or above 38, the detector emits no candidate for
that vendor. -/
theorem claim_C1_out_of_range_gap_disqualifies (nowMs : Nat) (invs : List Invoice)
    (v : Str) (d : Nat) (cluster : List Invoice)
    (hsel : selectLargestGroup (validDayGroups (buildDayGroups
      (sortByDate (vendorRecords invs v)))) = some (d, cluster))
    (hbad : ¬ (sortByDate cluster).Chain'
      (fun a b => 25 ≤ daysDiff a b ∧ daysDiff a b ≤ 38)) :
    ∀ c ∈ analyzeRecurringExpenses nowMs invs, normVendorKey (some c.vendor) ≠ v := by
  intro c hc hkey
  have hmain := analyze_mem_main getExpenseType nowMs invs c hc
  rw [hkey] at hmain
  obtain ⟨hlen, i0, rest, d', group, hsort, hsel', hchain, hexc, hcrec⟩ :=
    mkCandidate_some_inv _ _ _ _ _ hmain
  rw [hsel] at hsel'
  rw [Option.some.injEq, Prod.mk.injEq] at hsel'
  rw [← hsel'.2] at hchain
  exact hbad ((chainOk_iff _).mp hchain)

/-- **C3**: every emitted candidate reports the arithmetic mean of the
selected cluster's amounts, the cluster size as `occurrence_count`, the
clustering representative day as `day_of_month`, and the latest cluster date
as `last_date`. -/
theorem claim_C3_candidate_fields (nowMs : Nat) (invs : List Invoice)
    (c : RecurringExpense) (h : c ∈ analyzeRecurringExpenses nowMs invs) :
    ∃ d cluster,
      selectLargestGroup (validDayGroups (buildDayGroups
        (sortByDate (vendorRecords invs (normVendorKey (some c.vendor)))))) =
        some (d, cluster) ∧
      c.avgAmount = (cluster.map (fun i => i.amount.getD 0)).sum / (cluster.length : ℚ) ∧
      c.frequency = cluster.length ∧
      c.dayOfMonth = d ∧
      ∃ j ∈ cluster, c.lastDate = j.date ∧ ∀ i ∈ cluster, dateDays i ≤ dateDays j := by
  have hmain := analyze_mem_main getExpenseType nowMs invs c h
  obtain ⟨hlen, i0, rest, d, group, hsort, hsel, hchain, hexc, hc⟩ :=
    mkCandidate_some_inv _ _ _ _ _ hmain
  refine ⟨d, group, hsel, ?_, ?_, by rw [hc], ?_⟩
  · -- average amount
    have hperm : List.Perm ((sortByDate group).map jsAmount)
        (group.map jsAmount) :=
      (jsSortByKey_perm timeMs group).map jsAmount
    have hsum : ((sortByDate group).map jsAmount).sum = (group.map jsAmount).sum :=
      hperm.sum_eq
    have hmapeq : group.map jsAmount = group.map (fun i => i.amount.getD 0) := by
      refine List.map_congr_left ?_
      intro i _
      exact jsAmount_eq i
    have hav : c.avgAmount = ((sortByDate group).map jsAmount).foldl (· + ·) 0 /
        ((((sortByDate group).map jsAmount).length : Nat) : ℚ) := by rw [hc]
    rw [hav, foldl_add_eq_sum, zero_add, hsum, hmapeq]
    simp only [List.length_map]
    rw [length_sortByDate]
  · -- occurrence count
    have : c.frequency = (sortByDate group).length := by rw [hc]
    rw [this, length_sortByDate]
  · -- last date is the latest date of the cluster
    have hval := validDayGroups_mem _ _ (selectLargestGroup_mem _ _ hsel)
    have hlen2 : 2 ≤ group.length := hval.2
    have hne : sortByDate group ≠ [] := by
      have hlenms := length_sortByDate group
      intro hcon
      rw [hcon] at hlenms
      simp at hlenms
      omega
    refine ⟨(sortByDate group).getLast hne, ?_, ?_, ?_⟩
    · rw [← mem_sortByDate]
      exact List.getLast_mem hne
    · have : c.lastDate = ((sortByDate group).getLast?).bind Invoice.date := by
        rw [hc]
      rw [this, List.getLast?_eq_getLast _ hne]
      rfl
    · intro i hi
      exact sorted_le_getLast (sortByDate group)
        (sortByDate_pairwise group) i
        ((mem_sortByDate group i).mpr hi) hne

/-! ## Review-handler lemmas and claims -/

theorem setKey_mem :
    ∀ (m : List (Str × JVal)) (k : Str) (v : JVal) (p : Str × JVal),
      p ∈ setKey m k v → p.2 = v ∨ p ∈ m
  | [], _, _, p, hp => by
    simp only [setKey, List.mem_singleton] at hp
    subst hp
    exact Or.inl rfl
  | (k', v') :: tl, k, v, p, hp => by
    rw [setKey] at hp
    split at hp
    · rcases List.mem_cons.mp hp with hp | hp
      · subst hp
        exact Or.inl rfl
      · exact Or.inr (List.mem_cons_of_mem _ hp)
    · rcases List.mem_cons.mp hp with hp | hp
      · subst hp
        exact Or.inr (List.mem_cons_self _ _)
      · rcases setKey_mem tl k v p hp with hv | hv
        · exact Or.inl hv
        · exact Or.inr (List.mem_cons_of_mem _ hv)

theorem lookupKey_setKey_self :
    ∀ (m : List (Str × JVal)) (k : Str) (v : JVal),
      lookupKey (setKey m k v) k = some v
  | [], k, v => by simp [setKey, lookupKey]
  | (k', v') :: tl, k, v => by
    rw [setKey]
    split
    · next hk =>
      rw [lookupKey, if_pos hk]
    · next hk =>
      rw [lookupKey, if_neg hk]
      exact lookupKey_setKey_self tl k v

/-- Every value in the submitted mapping is non-falsy. -/
theorem submittedAnswers_values (answers : List (Str × JVal)) (A : Option ℚ) :
    ∀ p ∈ submittedAnswers answers A, jsEmptyish p.2 = false := by
  intro p hp
  have hfil : ∀ q ∈ answers.filter (fun r => !jsEmptyish r.2),
      jsEmptyish q.2 = false := by
    intro q hq
    have := (List.mem_filter.mp hq).2
    rwa [Bool.not_eq_true'] at this
  unfold submittedAnswers at hp
  split at hp
  · rcases setKey_mem _ _ _ p hp with hv | hv
    · rw [hv]
      rfl
    · exact hfil p hv
  · exact hfil p hp

/-- **C10**: the Submit Answers handler never posts an empty answer mapping:
falsy answer values are filtered out first, every value it posts is
non-falsy, and when nothing survives the filter it sends no request at all —
so resolving with `{}` (approve as-is) is reachable only through
`handleSkipReview`. -/
theorem claim_C10_no_empty_submit :
    (∀ (answers : List (Str × JVal)) (A : Option ℚ) (m : List (Str × JVal)),
      handleSubmitReview answers A = some m →
      m ≠ [] ∧ ∀ p ∈ m, jsEmptyish p.2 = false) ∧
    (∀ (answers : List (Str × JVal)) (A : Option ℚ),
      (∀ p ∈ answers, jsEmptyish p.2 = true) → handleSubmitReview answers A = none) ∧
    handleSkipReview = some [] := by
  refine ⟨?_, ?_, rfl⟩
  · intro answers A m h
    unfold handleSubmitReview at h
    split at h
    · exact absurd h (by simp)
    · next hne =>
      rw [Option.some.injEq] at h
      subst h
      refine ⟨?_, submittedAnswers_values answers A⟩
      intro hcon
      rw [hcon] at hne
      simp at hne
  · intro answers A hall
    have hfil : answers.filter (fun r => !jsEmptyish r.2) = [] := by
      rw [List.filter_eq_nil_iff]
      intro p hp
      rw [hall p hp]
      simp
    have hsub : submittedAnswers answers A = [] := by
      simp [submittedAnswers, hfil, lookupKey]
    simp [handleSubmitReview, hsub]

/-- **C8 (amended)**: when the submitted answer mapping contains
`vat_inclusive` and the invoice record has a truthy (non-null, non-zero)
amount, the submitted mapping also contains that amount, taken from the
record. -/
theorem claim_C8_amended_amount_included (answers : List (Str × JVal)) (a : ℚ)
    (m : List (Str × JVal)) (ha : a ≠ 0)
    (h : handleSubmitReview answers (some a) = some m)
    (hvat : (lookupKey m vatKey).isSome = true) :
    lookupKey m amountKey = some (JVal.num a) := by
  have hba : jsNumFalsy (some a) = false := by
    unfold jsNumFalsy
    exact beq_eq_false_iff_ne.mpr ha
  unfold handleSubmitReview at h
  split at h
  · exact absurd h (by simp)
  · rw [Option.some.injEq] at h
    subst h
    unfold submittedAnswers at hvat ⊢
    rw [hba] at hvat ⊢
    simp only [Bool.not_false, Bool.and_true] at hvat ⊢
    by_cases hlk :
      (lookupKey (answers.filter (fun r => !jsEmptyish r.2)) vatKey).isSome = true
    · rw [if_pos hlk]
      exact lookupKey_setKey_self _ _ _
    · rw [if_neg hlk] at hvat
      exact absurd hvat hlk

/-- **C8 (counterexample)**: with a zero invoice amount — an amount the
record does have — the handler posts a mapping containing `vat_inclusive`
but not `amount`, because the code tests JavaScript truthiness
(`invoice.amount`), not presence. -/
theorem claim_C8_counterexample :
    handleSubmitReview [(vatKey, JVal.bool true)] (some 0) =
      some [(vatKey, JVal.bool true)] ∧
    lookupKey [(vatKey, JVal.bool true)] amountKey = none := by
  constructor
  · rfl
  · rfl

/-! ## VAT resolver claim -/

theorem rat_floor_eq_int_floor (q : ℚ) :
    ((Rat.floor q : ℤ) : ℚ) = ((⌊q⌋ : ℤ) : ℚ) := by
  rw [Rat.floor_def, ← Rat.floor_def']

/-- **C7** (the backend VAT Resolver is modelled from the spec, as it is not
among the provided sources): for every gross amount `G ≥ 0`, resolving with
`vat_inclusive = true` gives `amount = round(G / 1.05, 2)` (half-up, within
1/200 of the exact quotient) and `tax_amount = G − amount` exactly, so the
parts recompose `G` within any 0.01 tolerance. -/
theorem claim_C7_vat_inclusive_split (G : ℚ) (hG : 0 ≤ G) :
    (resolveVatInclusive G).1 = roundHalfUp2 (G / (1 + vatRate)) ∧
    (resolveVatInclusive G).2 = G - (resolveVatInclusive G).1 ∧
    |G / (1 + vatRate) - (resolveVatInclusive G).1| ≤ 1 / 200 ∧
    (resolveVatInclusive G).1 + (resolveVatInclusive G).2 = G := by
  refine ⟨rfl, rfl, ?_, by
    unfold resolveVatInclusive
    ring⟩
  unfold resolveVatInclusive roundHalfUp2
  set x := G / (1 + vatRate) with hx
  rw [rat_floor_eq_int_floor]
  have h1 : ((⌊x * 100 + 1 / 2⌋ : ℤ) : ℚ) ≤ x * 100 + 1 / 2 := Int.floor_le _
  have h2 : x * 100 + 1 / 2 < ((⌊x * 100 + 1 / 2⌋ : ℤ) : ℚ) + 1 :=
    Int.lt_floor_add_one _
  rw [abs_le]
  constructor
  · rw [neg_le, neg_sub]
    nlinarith [h1]
  · nlinarith [h2]

/-! ## Concrete witnesses

The `Rat` arithmetic operations are `@[irreducible]` in the library, which
blocks `decide`-style evaluation of the detector on concrete records; they
are restored to their ordinary transparency for the concrete computations
below. -/

attribute [local semireducible] Rat.mul Rat.add Rat.inv Rat.sub

/-- 2025-10-11 (day 2110 since 2020-01-01), as a midnight timestamp. -/
def wNow : Nat := 2110 * msPerDay

/-- Three DEWA invoices of 100 on 2024-01-01, 2024-02-01, 2024-03-01
(days 1461, 1492, 1521): a perfect monthly pattern. -/
def wInvoices : List Invoice :=
  [⟨1, some ("dewa".toList), some 100, none, some 1461, true, none⟩,
   ⟨2, some ("dewa".toList), some 100, none, some 1492, true, none⟩,
   ⟨3, some ("dewa".toList), some 100, none, some 1521, true, none⟩]

/-- The candidate the detector emits for `wInvoices` at `wNow`
(next expected: 2025-11-01, day 2131). -/
def wCand : RecurringExpense :=
  ⟨"dewa".toList, 100, 1, 3, some 1521, none, 2131 * msPerDay,
   some ("utility".toList)⟩

/-- Two ACME invoices 60 days apart (2024-01-01 and 2024-03-01), both on
day 1 of the month: same day-of-month cluster, gap out of range. -/
def wAcme : List Invoice :=
  [⟨1, some ("acme".toList), some 50, none, some 1461, true, none⟩,
   ⟨2, some ("acme".toList), some 50, none, some 1521, true, none⟩]

def wMixed : List Invoice := wAcme ++ wInvoices

theorem claim_C1_witness :
    normVendorKey (some wCand.vendor) ≠ ("acme".toList) :=
  claim_C1_out_of_range_gap_disqualifies wNow wMixed ("acme".toList) 1 wAcme
    (by decide)
    (by
      rw [← chainOk_iff]
      decide)
    wCand (by decide)

theorem claim_C2_witness :
    isExcluded wCand.vendor = false ∧
    (∀ k ∈ EXCLUDE_KEYWORDS, ¬ k <:+: toLowerStr wCand.vendor) ∧
    2 ≤ (vendorRecords wInvoices (normVendorKey (some wCand.vendor))).length :=
  claim_C2_exclusion_and_min_records wNow wInvoices wCand (by decide)

theorem claim_C3_witness :
    ∃ d cluster,
      selectLargestGroup (validDayGroups (buildDayGroups
        (sortByDate (vendorRecords wInvoices (normVendorKey (some wCand.vendor)))))) =
        some (d, cluster) ∧
      wCand.avgAmount = (cluster.map (fun i => i.amount.getD 0)).sum /
        (cluster.length : ℚ) ∧
      wCand.frequency = cluster.length ∧
      wCand.dayOfMonth = d ∧
      ∃ j ∈ cluster, wCand.lastDate = j.date ∧
        ∀ i ∈ cluster, dateDays i ≤ dateDays j :=
  claim_C3_candidate_fields wNow wInvoices wCand (by decide)

theorem claim_C4_witness :
    wNow < wCand.nextExpected ∧
    wCand.nextExpected = nextExpectedMs wNow wCand.dayOfMonth :=
  claim_C4_next_expected_strictly_future wNow wInvoices wCand (by decide)

theorem claim_C7_witness :
    (0 : ℚ) ≤ 1000 ∧
    ((resolveVatInclusive 1000).1 = roundHalfUp2 (1000 / (1 + vatRate)) ∧
      (resolveVatInclusive 1000).2 = 1000 - (resolveVatInclusive 1000).1 ∧
      |1000 / (1 + vatRate) - (resolveVatInclusive 1000).1| ≤ 1 / 200 ∧
      (resolveVatInclusive 1000).1 + (resolveVatInclusive 1000).2 = 1000) ∧
    resolveVatInclusive 1000 = (47619 / 50, 2381 / 50) :=
  ⟨by norm_num, claim_C7_vat_inclusive_split 1000 (by norm_num), by decide⟩

theorem claim_C8_witness :
    lookupKey [(vatKey, JVal.bool true), (amountKey, JVal.num 5)] amountKey =
      some (JVal.num 5) :=
  claim_C8_amended_amount_included [(vatKey, JVal.bool true)] 5
    [(vatKey, JVal.bool true), (amountKey, JVal.num 5)]
    (by norm_num) (by decide) (by decide)

theorem claim_C10_witness :
    ([((("vat_inclusive").toList : Str), JVal.bool false)] ≠ [] ∧
      ∀ p ∈ [((("vat_inclusive").toList : Str), JVal.bool false)],
        jsEmptyish p.2 = false) ∧
    handleSubmitReview [(vatKey, JVal.str [])] none = none :=
  ⟨claim_C10_no_empty_submit.1 [(vatKey, JVal.bool false)] none
      [(vatKey, JVal.bool false)] (by decide),
    claim_C10_no_empty_submit.2.1 [(vatKey, JVal.str [])] none (by decide)⟩
